import Mathlib

/-!
Shallow embedding of the FioBot recruitment-tag solver
(`src/fio_bot/plugins/mrfz/recruit.py` and `game_data.py`).

Python strings are modelled as `List Char` (one element per Unicode code
point, matching Python's string indexing/slicing); Python `list` as `List`,
Python `set` as a duplicate-free accumulation list whose only observed
operation downstream is membership; Python `dict` lookup as association-list
lookup (keys are unique in the embedded tables); Python `int` as `Int`.
-/

set_option maxRecDepth 100000

/-- A Python string, one `Char` per code point. -/
abbrev Tok := List Char

/-- Model of Python whitespace for `str.strip()` / `str.split()` /
the `\s` regex class (ASCII whitespace; exotic Unicode space code points
are not modelled). -/
def pyIsSpace (c : Char) : Bool :=
  c == ' ' || c == '\t' || c == '\n' || c == '\r' || c == '\x0b' || c == '\x0c'

/-- Model of Python `str.strip()`: drop whitespace from both ends. -/
def pyStrip (s : Tok) : Tok :=
  ((s.dropWhile pyIsSpace).reverse.dropWhile pyIsSpace).reverse

/-- Model of Python `str.split()` with no argument: split on whitespace
runs, discarding empty pieces. -/
def pySplitWs (s : Tok) : List Tok :=
  (s.splitOnP pyIsSpace).filter (· ≠ [])

/-- Model of Python `sub in s` (substring containment). -/
def pyInStr (sub s : Tok) : Bool :=
  s.tails.any (fun t => sub.isPrefixOf t)

/-- Append `x` to `acc` unless already present: the effect of the source's
`if x not in result: result.append(x)` idiom, and of `set.add` on a set
modelled as a duplicate-free list. -/
def addIfNew (acc : List Tok) (x : Tok) : List Tok :=
  if x ∈ acc then acc else acc ++ [x]

/-- Duplicate removal keeping first occurrences (the order in which the
source's append-if-new loops accumulate elements). -/
def firstDedup (l : List Tok) : List Tok :=
  l.foldl addIfNew []

/-- The `TAG_ALIASES` table of `recruit.py`: informal token -> canonical
tag, including the identity entries for every full tag. -/
def TAG_ALIASES : List (Tok × Tok) :=
  [("高资".toList, "高级资深干员".toList), ("高姿".toList, "高级资深干员".toList),
   ("高级".toList, "高级资深干员".toList), ("高级资深".toList, "高级资深干员".toList),
   ("资深".toList, "资深干员".toList), ("资干".toList, "资深干员".toList),
   ("机械".toList, "支援机械".toList), ("支机".toList, "支援机械".toList),
   ("近战".toList, "近战位".toList), ("远程".toList, "远程位".toList),
   ("近卫".toList, "近卫干员".toList), ("狙击".toList, "狙击干员".toList),
   ("重装".toList, "重装干员".toList), ("医疗".toList, "医疗干员".toList),
   ("辅助".toList, "辅助干员".toList), ("术师".toList, "术师干员".toList),
   ("术士".toList, "术师干员".toList), ("特种".toList, "特种干员".toList),
   ("先锋".toList, "先锋干员".toList), ("回费".toList, "费用回复".toList),
   ("费回".toList, "费用回复".toList), ("恢复".toList, "费用回复".toList),
   ("快活".toList, "快速复活".toList), ("复活".toList, "快速复活".toList),
   ("快速".toList, "快速复活".toList),
   ("高级资深干员".toList, "高级资深干员".toList), ("资深干员".toList, "资深干员".toList),
   ("支援机械".toList, "支援机械".toList), ("近战位".toList, "近战位".toList),
   ("远程位".toList, "远程位".toList), ("近卫干员".toList, "近卫干员".toList),
   ("狙击干员".toList, "狙击干员".toList), ("重装干员".toList, "重装干员".toList),
   ("医疗干员".toList, "医疗干员".toList), ("辅助干员".toList, "辅助干员".toList),
   ("术师干员".toList, "术师干员".toList), ("特种干员".toList, "特种干员".toList),
   ("先锋干员".toList, "先锋干员".toList), ("控场".toList, "控场".toList),
   ("爆发".toList, "爆发".toList), ("治疗".toList, "治疗".toList),
   ("支援".toList, "支援".toList), ("费用回复".toList, "费用回复".toList),
   ("输出".toList, "输出".toList), ("生存".toList, "生存".toList),
   ("群攻".toList, "群攻".toList), ("防护".toList, "防护".toList),
   ("减速".toList, "减速".toList), ("削弱".toList, "削弱".toList),
   ("快速复活".toList, "快速复活".toList), ("位移".toList, "位移".toList),
   ("召唤".toList, "召唤".toList), ("元素".toList, "元素".toList),
   ("新手".toList, "新手".toList)]

/-- Model of `TAG_ALIASES.get(t)` (keys in the table are unique). -/
def aliasLookup (t : Tok) : Option Tok :=
  (TAG_ALIASES.find? (fun p => p.1 == t)).map (·.2)

/-- The keys of the alias table (`TAG_ALIASES.keys()`). -/
def aliasKeys : List Tok := TAG_ALIASES.map (·.1)

-- ==================== smart_split_tags ====================

/-- Model of `re.split(r"[,，\s]+", text.strip())` followed by the source's
`[p.strip() for p in parts if p.strip()]`: split on comma / fullwidth-comma /
whitespace, strip each piece, keep the non-empty ones. -/
def splitSeps (text : Tok) : List Tok :=
  (((pyStrip text).splitOnP
      (fun c => c == ',' || c == '，' || pyIsSpace c)).map pyStrip).filter (· ≠ [])

/-- One probe of the greedy matcher: the first keyword in `kws` that is a
prefix of `s` (the source's inner `for kw in all_keywords: if
remaining.startswith(kw)` loop). -/
def greedyStep (kws : List Tok) (s : Tok) : Option Tok :=
  kws.find? (fun k => k.isPrefixOf s)

/-- The source's `while remaining:` greedy loop.  Each iteration either
consumes the matched keyword or drops one leading character, so when every
matched keyword is non-empty the loop runs at most `length s` times; the
explicit fuel argument makes that bound the recursion measure.  (If the
empty string were a keyword the Python loop would not terminate; the model
then stops when the fuel runs out.) -/
def greedySplit (kws : List Tok) : Nat → Tok → List Tok
  | _, [] => []
  | 0, _ :: _ => []
  | fuel + 1, c :: cs =>
    match greedyStep kws (c :: cs) with
    | some kw => kw :: greedySplit kws fuel ((c :: cs).drop kw.length)
    | none => greedySplit kws fuel cs

/-- The body of `smart_split_tags` for a single separator-delimited piece:
keep it verbatim when it is a known alias key or valid tag, otherwise
greedy-split it, falling back to the verbatim piece when nothing matched. -/
def processPart (kws valid_tags : List Tok) (part : Tok) : List Tok :=
  if (aliasLookup part).isSome ∨ part ∈ valid_tags then [part]
  else
    let toks := greedySplit kws part.length part
    if toks = [] then [part] else toks

/-- `smart_split_tags`, parametrised by the keyword list.  The source builds
`all_keywords = sorted(set(TAG_ALIASES.keys()) + valid_tags, key=len,
reverse=True)`; the iteration order of the Python `set` is unspecified, so
the keyword list is any length-descending ordering of that set
(`KeywordOrder` below). -/
def smart_split_tags_with (kws valid_tags : List Tok) (text : Tok) : List Tok :=
  (splitSeps text).flatMap (processPart kws valid_tags)

/-- `kws` is an admissible `all_keywords` list for `valid_tags`: same
members as the set of alias keys and valid tags, ordered by non-increasing
length. -/
def KeywordOrder (valid_tags kws : List Tok) : Prop :=
  (∀ k ∈ kws, k ∈ aliasKeys ∨ k ∈ valid_tags) ∧
  (∀ k ∈ aliasKeys, k ∈ kws) ∧
  (∀ k ∈ valid_tags, k ∈ kws) ∧
  kws.Pairwise (fun a b => b.length ≤ a.length)

/-- The canonical keyword list: alias keys then valid tags, first-occurrence
deduplicated, stably sorted by descending length.  One admissible order of
the source's unordered set; the determinism theorem shows every admissible
order yields the same output. -/
def allKeywords (valid_tags : List Tok) : List Tok :=
  (firstDedup (aliasKeys ++ valid_tags)).insertionSort
    (fun a b => b.length ≤ a.length)

/-- `smart_split_tags` of `recruit.py`, at the canonical keyword order. -/
def smart_split_tags (text : Tok) (valid_tags : List Tok) : List Tok :=
  smart_split_tags_with (allKeywords valid_tags) valid_tags text

-- ==================== normalize_tags ====================

/-- One iteration of the `normalize_tags` loop on the accumulated `result`
list: strip, skip empties, exact valid-tag match first, then alias mapping
(accepted only when truthy and valid), then first-substring fallback. -/
def normStep (valid_tags : List Tok) (result : List Tok) (raw0 : Tok) : List Tok :=
  let raw := pyStrip raw0
  if raw = [] then result
  else if raw ∈ valid_tags then addIfNew result raw
  else
    let fallback :=
      match valid_tags.find? (fun vt => pyInStr raw vt) with
      | some vt => addIfNew result vt
      | none => result
    match aliasLookup raw with
    | some mapped =>
      if mapped ≠ [] ∧ mapped ∈ valid_tags then addIfNew result mapped else fallback
    | none => fallback

/-- `normalize_tags` of `recruit.py`. -/
def normalize_tags (raw_tags valid_tags : List Tok) : List Tok :=
  raw_tags.foldl (normStep valid_tags) []

-- ==================== extract_tags_from_ocr ====================

/-- One iteration of the `extract_tags_from_ocr` loop: strip, skip empties,
exact match, alias match, else append every not-yet-seen valid tag occurring
as a substring of the line. -/
def ocrStep (valid_tags : List Tok) (found : List Tok) (line0 : Tok) : List Tok :=
  let line := pyStrip line0
  if line = [] then found
  else if line ∈ valid_tags then addIfNew found line
  else
    let subst := valid_tags.foldl
      (fun acc tag => if pyInStr tag line then addIfNew acc tag else acc) found
    match aliasLookup line with
    | some mapped =>
      if mapped ≠ [] ∧ mapped ∈ valid_tags then addIfNew found mapped else subst
    | none => subst

/-- `extract_tags_from_ocr` of `recruit.py`. -/
def extract_tags_from_ocr (ocr_lines valid_tags : List Tok) : List Tok :=
  ocr_lines.foldl (ocrStep valid_tags) []

-- ==================== find_recruit_combinations ====================

/-- An entry of the solver's `operators` input: the
`{name, rarity, tags}` dict built by `build_recruit_data` (`tags` is a
Python set, modelled as a list observed only through membership). -/
structure Operator where
  name : Tok
  rarity : Int
  tags : List Tok
deriving DecidableEq

/-- A `{name, rarity}` dict in a result's `operators` list. -/
structure Matched where
  name : Tok
  rarity : Int
deriving DecidableEq

/-- A result dict of `find_recruit_combinations`:
`{tags, operators, min_rarity}`. -/
structure Combination where
  tags : List Tok
  operators : List Matched
  min_rarity : Int
deriving DecidableEq

/-- Model of `itertools.combinations(l, k)`: all size-`k` combinations, each
in the order of `l`, enumerated in lexicographic index order. -/
def combinations : Nat → List α → List (List α)
  | 0, _ => [[]]
  | _ + 1, [] => []
  | k + 1, x :: xs => (combinations k xs).map (x :: ·) ++ combinations (k + 1) xs

/-- Python `<` on strings: lexicographic comparison by code point. -/
def tokLt : Tok → Tok → Bool
  | [], [] => false
  | [], _ :: _ => true
  | _ :: _, [] => false
  | a :: as, b :: bs => a < b || (a == b && tokLt as bs)

/-- The matched-operator sort relation: the source's
`matched.sort(key=lambda x: (-x["rarity"], x["name"]))`, i.e. the
non-strict lexicographic order on the key `(-rarity, name)`. -/
def matchedLe (a b : Matched) : Prop :=
  b.rarity < a.rarity ∨ (a.rarity = b.rarity ∧ (tokLt a.name b.name ∨ a.name = b.name))

instance : DecidableRel matchedLe := fun a b => by
  unfold matchedLe; infer_instance

/-- The matching loop body of `find_recruit_combinations`: operators whose
tag set contains every tag of `combo`, with rarity-5 operators skipped
unless `combo` contains the top-veteran tag. -/
def matchedOps (combo : List Tok) (operators : List Operator) : List Matched :=
  operators.filterMap (fun op =>
    if ∀ t ∈ combo, t ∈ op.tags then
      if op.rarity = 5 ∧ "高级资深干员".toList ∉ combo then none
      else some ⟨op.name, op.rarity⟩
    else none)

/-- The per-combination body of `find_recruit_combinations`: match, skip
when nothing matched, compute the floor and ceiling rarity, drop floors 1
and 2, keep floor 0 only when every match is rarity 0 (narrowing the list
to those), and sort the surviving matches by `(-rarity, name)`.
`List.insertionSort` is a stable sort, like Python's `list.sort`. -/
def processCombo (operators : List Operator) (combo : List Tok) : Option Combination :=
  let matched := matchedOps combo operators
  if matched = [] then none
  else
    let min_rarity : Int := ((matched.map (·.rarity)).min?).getD 0
    let max_rarity : Int := ((matched.map (·.rarity)).max?).getD 0
    if min_rarity = 1 ∨ min_rarity = 2 then none
    else if min_rarity = 0 then
      if max_rarity > 0 then none
      else some ⟨combo,
        (matched.filter (fun m => m.rarity = 0)).insertionSort matchedLe, min_rarity⟩
    else some ⟨combo, matched.insertionSort matchedLe, min_rarity⟩

/-- The final result ordering of `find_recruit_combinations`:
`results.sort(key=lambda x: (-x["min_rarity"], len(x["tags"])))`. -/
def comboLe (a b : Combination) : Prop :=
  b.min_rarity < a.min_rarity ∨
    (a.min_rarity = b.min_rarity ∧ a.tags.length ≤ b.tags.length)

instance : DecidableRel comboLe := fun a b => by
  unfold comboLe; infer_instance

instance : IsTotal Combination comboLe := by
  constructor; intro a b; unfold comboLe; omega

instance : IsTrans Combination comboLe := by
  constructor; intro a b c; unfold comboLe; omega

/-- `find_recruit_combinations` of `recruit.py`: enumerate the size-1 to
size-`min(max_combo_size, len(user_tags))` combinations of the user's tags,
process each, and sort the surviving results by `(-min_rarity, len(tags))`
with a stable sort. -/
def find_recruit_combinations (user_tags : List Tok) (operators : List Operator)
    (max_combo_size : Nat := 3) : List Combination :=
  let results := (List.range' 1 (min max_combo_size user_tags.length)).flatMap
    (fun k => (combinations k user_tags).filterMap (processCombo operators))
  results.insertionSort comboLe

-- ==================== game_data.py ====================

/-- The `PROFESSION_MAP` table of `game_data.py`. -/
def PROFESSION_MAP : List (Tok × Tok) :=
  [("PIONEER".toList, "先锋干员".toList), ("WARRIOR".toList, "近卫干员".toList),
   ("SNIPER".toList, "狙击干员".toList), ("TANK".toList, "重装干员".toList),
   ("MEDIC".toList, "医疗干员".toList), ("SUPPORT".toList, "辅助干员".toList),
   ("CASTER".toList, "术师干员".toList), ("SPECIAL".toList, "特种干员".toList)]

/-- Model of `PROFESSION_MAP.get(p)`. -/
def professionLookup (p : Tok) : Option Tok :=
  (PROFESSION_MAP.find? (fun e => e.1 == p)).map (·.2)

/-- The `RARITY_MAP` table of `game_data.py`: symbolic tier label ->
0-based rarity. -/
def RARITY_MAP : List (Tok × Int) :=
  [("TIER_1".toList, 0), ("TIER_2".toList, 1), ("TIER_3".toList, 2),
   ("TIER_4".toList, 3), ("TIER_5".toList, 4), ("TIER_6".toList, 5)]

/-- Model of `RARITY_MAP.get`/`in` lookup. -/
def rarityMapLookup (s : Tok) : Option Int :=
  (RARITY_MAP.find? (fun e => e.1 == s)).map (·.2)

/-- A raw JSON `rarity` field: a Python `int`, a Python `str`, or a value
of any other type. -/
inductive RawRarity where
  | int (n : Int)
  | str (s : Tok)
  | other
deriving DecidableEq

/-- Model of the Python builtin `int()` applied to a string: optional
surrounding whitespace, optional sign, then a non-empty run of ASCII
decimal digits (digit-group underscores and non-ASCII digits are not
modelled).  `none` models `ValueError`. -/
def digitsToNat (ds : List Char) : Option Nat :=
  if ds ≠ [] ∧ ds.all Char.isDigit then
    some (ds.foldl (fun a c => a * 10 + (c.toNat - '0'.toNat)) 0)
  else none

/-- See `digitsToNat`. -/
def pyIntOfStr (s : Tok) : Option Int :=
  match pyStrip s with
  | '-' :: ds => (digitsToNat ds).map (fun n => -(n : Int))
  | '+' :: ds => (digitsToNat ds).map (fun n => (n : Int))
  | ds => (digitsToNat ds).map (fun n => (n : Int))

/-- `parse_rarity` of `game_data.py`: an `int` is returned unchanged, a
string is looked up in `RARITY_MAP` and otherwise parsed with `int()`;
everything unparseable yields `-1`. -/
def parse_rarity (raw : RawRarity) : Int :=
  match raw with
  | .int n => n
  | .str s =>
    match rarityMapLookup s with
    | some v => v
    | none => (pyIntOfStr s).getD (-1)
  | .other => -1

/-- A well-formed `character_table` record, with the `dict.get` defaults of
`build_recruit_data` (`name` defaults to `""`, `rarity` to `0`,
`profession` and `position` to `""`, `tagList` to `[]`). -/
structure CharData where
  name : Tok := []
  rarity : RawRarity := .int 0
  profession : Tok := []
  position : Tok := []
  tagList : List Tok := []
deriving DecidableEq

/-- A `character_table` value: a dict record, or a value of another type
(skipped by the `isinstance(char_data, dict)` check). -/
inductive CharEntry where
  | record (d : CharData)
  | notDict
deriving DecidableEq

/-- The parts of `gacha_table.json` that `game_data.py` reads: the
`tagName` list of `gachaTags`, and the free-text `recruitDetail` roster. -/
structure GachaTable where
  gachaTags : List Tok
  recruitDetail : Tok
deriving DecidableEq

/-- `get_all_recruit_tags` of `game_data.py`. -/
def get_all_recruit_tags (g : GachaTable) : List Tok :=
  g.gachaTags

/-- Model of `s.replace("\\n", "\n")`: rewrite each two-character
backslash-n sequence to a newline, left to right. -/
def replaceBackslashN : Tok → Tok
  | '\\' :: 'n' :: rest => '\n' :: replaceBackslashN rest
  | c :: rest => c :: replaceBackslashN rest
  | [] => []

/-- Model of `re.sub(r"<[^>]+>", "", line)`: remove every leftmost
non-overlapping run that starts with `<`, has at least one character other
than `>`, and ends at the first following `>`.  Every step consumes at
least one character, so `length s` fuel suffices; the fuel makes the
recursion structural. -/
def removeHtmlTagsF : Nat → Tok → Tok
  | _, [] => []
  | 0, s => s
  | fuel + 1, '<' :: rest =>
    match rest.takeWhile (· ≠ '>'), rest.dropWhile (· ≠ '>') with
    | [], _ => '<' :: removeHtmlTagsF fuel rest
    | _ :: _, '>' :: after => removeHtmlTagsF fuel after
    | _ :: _, _ => '<' :: rest
  | fuel + 1, c :: rest => c :: removeHtmlTagsF fuel rest

/-- See `removeHtmlTagsF`. -/
def removeHtmlTags (s : Tok) : Tok := removeHtmlTagsF s.length s

/-- `parse_recruit_pool` of `game_data.py`: split the roster text into
lines, drop blank lines and lines starting with a star marker or `<`,
strip inline markup, turn slash separators into spaces, and collect the
whitespace-separated names (skipping the `-` placeholder) into a set,
modelled as a first-occurrence list. -/
def parse_recruit_pool (g : GachaTable) : List Tok :=
  let lines := (replaceBackslashN g.recruitDetail).splitOn '\n'
  lines.foldl
    (fun names line0 =>
      let line := pyStrip line0
      if line = [] ∨ line.head? = some '★' ∨ line.head? = some '<' then names
      else
        let line := removeHtmlTags line
        let line := line.map (fun c => if c = '/' ∨ c = '／' then ' ' else c)
        (pySplitWs line).foldl
          (fun ns name0 =>
            let name := pyStrip name0
            if name ≠ [] ∧ name ≠ ['-'] then addIfNew ns name else ns)
          names)
    []

/-- The tag-set construction of `build_recruit_data` for one record:
the declared tag list plus the profession tag, the positional tag, and the
rarity-derived tag (a Python `set`, modelled as a first-occurrence list). -/
def buildTags (d : CharData) (rarity : Int) : List Tok :=
  let tags := firstDedup d.tagList
  let tags :=
    match professionLookup d.profession with
    | some pn => addIfNew tags pn
    | none => tags
  let tags :=
    if d.position = "MELEE".toList then addIfNew tags ("近战位".toList)
    else if d.position = "RANGED".toList then addIfNew tags ("远程位".toList)
    else tags
  if rarity = 0 then addIfNew tags ("支援机械".toList)
  else if rarity = 4 then addIfNew tags ("资深干员".toList)
  else if rarity = 5 then addIfNew tags ("高级资深干员".toList)
  else tags

/-- `build_recruit_data` of `game_data.py` (its pure transformation part:
the two tables are received already loaded): keep the well-formed records
whose name is non-empty and in the recruit pool and whose rarity parses to
a non-negative value, and attach the full tag set. -/
def build_recruit_data (char_table : List (Tok × CharEntry)) (g : GachaTable) :
    List Operator × List Tok :=
  let valid_tags := get_all_recruit_tags g
  let recruit_pool := parse_recruit_pool g
  let operators := char_table.foldl
    (fun ops entry =>
      match entry.2 with
      | .notDict => ops
      | .record d =>
        if d.name = [] ∨ d.name ∉ recruit_pool then ops
        else
          let rarity := parse_rarity d.rarity
          if rarity < 0 then ops
          else ops ++ [⟨d.name, rarity, buildTags d rarity⟩])
    []
  (operators, valid_tags)

theorem foldl_preserves_mem {α β : Type _} {f : β → α → β} (P : β → Prop) :
    ∀ (l : List α), (∀ b a, a ∈ l → P b → P (f b a)) → ∀ b, P b → P (l.foldl f b)
  | [], _, _, h => h
  | a :: l, hf, b, h =>
    foldl_preserves_mem P l (fun b' a' ha' => hf b' a' (List.mem_cons_of_mem _ ha'))
      (f b a) (hf b a (List.mem_cons_self _ _) h)

theorem mem_addIfNew {acc : List Tok} {x y : Tok} :
    y ∈ addIfNew acc x ↔ y ∈ acc ∨ y = x := by
  unfold addIfNew
  split
  · rename_i hx
    constructor
    · exact Or.inl
    · rintro (h | rfl)
      · exact h
      · exact hx
  · simp

theorem addIfNew_nodup {acc : List Tok} {x : Tok} (h : acc.Nodup) :
    (addIfNew acc x).Nodup := by
  unfold addIfNew
  split
  · exact h
  · rename_i hx
    simpa [List.nodup_append] using ⟨h, fun hm => hx hm⟩

theorem addIfNew_inv {valid acc : List Tok} {x : Tok}
    (h : acc.Nodup ∧ ∀ t ∈ acc, t ∈ valid) (hx : x ∈ valid) :
    (addIfNew acc x).Nodup ∧ ∀ t ∈ addIfNew acc x, t ∈ valid := by
  refine ⟨addIfNew_nodup h.1, fun t ht => ?_⟩
  rcases mem_addIfNew.mp ht with h' | rfl
  · exact h.2 t h'
  · exact hx

theorem normStep_inv (valid : List Tok) (acc : List Tok) (t : Tok)
    (h : acc.Nodup ∧ ∀ x ∈ acc, x ∈ valid) :
    (normStep valid acc t).Nodup ∧ ∀ x ∈ normStep valid acc t, x ∈ valid := by
  simp only [normStep]
  split
  · exact h
  split
  · exact addIfNew_inv h (by assumption)
  split
  · split
    · rename_i hcond
      exact addIfNew_inv h hcond.2
    · split
      · rename_i hf
        exact addIfNew_inv h (List.mem_of_find?_eq_some hf)
      · exact h
  · split
    · rename_i hf
      exact addIfNew_inv h (List.mem_of_find?_eq_some hf)
    · exact h

theorem ocrStep_inv (valid : List Tok) (acc : List Tok) (t : Tok)
    (h : acc.Nodup ∧ ∀ x ∈ acc, x ∈ valid) :
    (ocrStep valid acc t).Nodup ∧ ∀ x ∈ ocrStep valid acc t, x ∈ valid := by
  have hsub : ∀ found : List Tok, found.Nodup ∧ (∀ x ∈ found, x ∈ valid) →
      (valid.foldl (fun acc tag =>
        if pyInStr tag (pyStrip t) then addIfNew acc tag else acc) found).Nodup ∧
      ∀ x ∈ valid.foldl (fun acc tag =>
        if pyInStr tag (pyStrip t) then addIfNew acc tag else acc) found, x ∈ valid := by
    intro found hfound
    refine foldl_preserves_mem
      (fun l => l.Nodup ∧ ∀ x ∈ l, x ∈ valid) valid ?_ found hfound
    intro b a ha hb
    split
    · exact addIfNew_inv hb ha
    · exact hb
  simp only [ocrStep]
  split
  · exact h
  split
  · exact addIfNew_inv h (by assumption)
  split
  · split
    · rename_i hcond
      exact addIfNew_inv h hcond.2
    · exact hsub _ h
  · exact hsub _ h

/-- Claim C10: every output tag of `normalize_tags` and of `extract_tags_from_ocr`
is a member of the supplied valid-tag list, and appears exactly once. -/
theorem normalize_and_ocr_vocabulary (raw_tags ocr_lines valid_tags : List Tok) :
    ((normalize_tags raw_tags valid_tags).Nodup ∧
      ∀ t ∈ normalize_tags raw_tags valid_tags, t ∈ valid_tags) ∧
    ((extract_tags_from_ocr ocr_lines valid_tags).Nodup ∧
      ∀ t ∈ extract_tags_from_ocr ocr_lines valid_tags, t ∈ valid_tags) := by
  constructor
  · exact foldl_preserves_mem
      (fun l => l.Nodup ∧ ∀ x ∈ l, x ∈ valid_tags) raw_tags
      (fun b a _ hb => normStep_inv valid_tags b a hb) [] ⟨List.nodup_nil, by simp⟩
  · exact foldl_preserves_mem
      (fun l => l.Nodup ∧ ∀ x ∈ l, x ∈ valid_tags) ocr_lines
      (fun b a _ hb => ocrStep_inv valid_tags b a hb) [] ⟨List.nodup_nil, by simp⟩

theorem norm_canonical_core (valid : List Tok) :
    ∀ (raw : List Tok) (acc : List Tok),
      (∀ t ∈ raw, t ∈ valid ∧ pyStrip t = t ∧ t ≠ []) →
      raw.foldl (normStep valid) acc = raw.foldl addIfNew acc
  | [], _, _ => rfl
  | t :: raw, acc, h => by
    have ht := h t (List.mem_cons_self _ _)
    have hstep : normStep valid acc t = addIfNew acc t := by
      simp only [normStep, ht.2.1, if_neg ht.2.2, if_pos ht.1]
    rw [List.foldl_cons, List.foldl_cons, hstep]
    exact norm_canonical_core valid raw (addIfNew acc t)
      (fun x hx => h x (List.mem_cons_of_mem _ hx))

theorem firstDedup_nodup_eq :
    ∀ (l : List Tok) (acc : List Tok), l.Nodup → (∀ t ∈ l, t ∉ acc) →
      l.foldl addIfNew acc = acc ++ l
  | [], acc, _, _ => by simp
  | a :: l, acc, hnd, hdisj => by
    have ha : addIfNew acc a = acc ++ [a] := by
      unfold addIfNew
      rw [if_neg (hdisj a (List.mem_cons_self _ _))]
    rw [List.foldl_cons, ha,
      firstDedup_nodup_eq l (acc ++ [a]) (List.Nodup.of_cons hnd) ?_]
    · simp
    · intro t ht
      simp only [List.mem_append, List.mem_singleton]
      rintro (hc | rfl)
      · exact hdisj t (List.mem_cons_of_mem _ ht) hc
      · exact (List.nodup_cons.mp hnd).1 ht

/-- Claim C7 (amended): on a list of non-empty, whitespace-trimmed valid tags,
`normalize_tags` returns the input with duplicates removed, first
occurrence order preserved; in particular a duplicate-free such list is
returned unchanged. -/
theorem normalize_tags_idempotent (raw valid : List Tok)
    (h : ∀ t ∈ raw, t ∈ valid ∧ pyStrip t = t ∧ t ≠ []) :
    normalize_tags raw valid = firstDedup raw ∧
      (raw.Nodup → normalize_tags raw valid = raw) := by
  have h1 : normalize_tags raw valid = firstDedup raw :=
    norm_canonical_core valid raw [] h
  refine ⟨h1, fun hnd => ?_⟩
  rw [h1]
  unfold firstDedup
  simpa using firstDedup_nodup_eq raw [] hnd (by simp)

/-- Claim C7 counterexample: with the empty string as a (pathological) valid tag,
the duplicate-free canonical list `[""]` is not returned unchanged —
`normalize_tags` drops the empty tag. -/
theorem normalize_tags_idempotent_cex :
    (∀ t ∈ ([[]] : List Tok), t ∈ ([[]] : List Tok)) ∧
    ([[]] : List Tok).Nodup ∧
    normalize_tags [[]] [[]] ≠ [[]] := by decide

theorem normalize_tags_idempotent_witness :
    (∀ t ∈ ["输出".toList, "近卫干员".toList],
      t ∈ ["输出".toList, "近卫干员".toList] ∧ pyStrip t = t ∧ t ≠ []) ∧
    (normalize_tags ["输出".toList, "近卫干员".toList] ["输出".toList, "近卫干员".toList] =
        firstDedup ["输出".toList, "近卫干员".toList] ∧
      (["输出".toList, "近卫干员".toList].Nodup →
        normalize_tags ["输出".toList, "近卫干员".toList]
          ["输出".toList, "近卫干员".toList] = ["输出".toList, "近卫干员".toList])) :=
  ⟨by decide, normalize_tags_idempotent _ _ (by decide)⟩

/-- Claim C8: scenario C — greedy longest-prefix splitting of the run-together
input, then normalization to canonical tags. -/
theorem scenario_c_split_and_normalize :
    smart_split_tags ("高资近卫输出".toList)
        ["高级资深干员".toList, "近卫干员".toList, "输出".toList] =
      ["高资".toList, "近卫".toList, "输出".toList] ∧
    normalize_tags ["高资".toList, "近卫".toList, "输出".toList]
        ["高级资深干员".toList, "近卫干员".toList, "输出".toList] =
      ["高级资深干员".toList, "近卫干员".toList, "输出".toList] := by decide

/-- The scenario-E gacha table: roster text with star markers, a blank
line, and a slash-separated multi-name line. -/
def gachaE : GachaTable :=
  { gachaTags := [], recruitDetail := "★\n无名\n\n★★\n无名2/无名3".toList }

/-- The scenario-E entity table: records named 无名 and 无名2, a record
named 其他 outside the pool, and a non-dict entry. -/
def charsE : List (Tok × CharEntry) :=
  [("char_001".toList, .record { name := "无名".toList
                                 rarity := .int 2
                                 profession := "SNIPER".toList
                                 position := "RANGED".toList
                                 tagList := ["输出".toList] }),
   ("char_002".toList, .record { name := "无名2".toList
                                 rarity := .int 4
                                 profession := "PIONEER".toList
                                 position := "MELEE".toList }),
   ("char_003".toList, .record { name := "其他".toList
                                 rarity := .int 3
                                 profession := "MEDIC".toList
                                 position := "RANGED".toList }),
   ("char_004".toList, .notDict)]

/-- Claim C9: the roster parses to exactly the three names, and the builder keeps
exactly the records whose name is in that set. -/
theorem recruit_pool_scenario :
    parse_recruit_pool gachaE = ["无名".toList, "无名2".toList, "无名3".toList] ∧
    (build_recruit_data charsE gachaE).1.map (·.name) =
      ["无名".toList, "无名2".toList] := by decide

/-- Claim C4 (amended): every entity built by `build_recruit_data` has a
non-negative rarity — unparseable or unmapped rarity values parse to `-1`
and the record is excluded at build time.  (No upper bound is enforced.) -/
theorem build_rarity_nonneg (char_table : List (Tok × CharEntry)) (g : GachaTable) :
    ∀ op ∈ (build_recruit_data char_table g).1, 0 ≤ op.rarity := by
  simp only [build_recruit_data]
  refine foldl_preserves_mem (fun ops : List Operator => ∀ op ∈ ops, 0 ≤ op.rarity)
    char_table ?_ [] (by simp)
  intro ops entry _ hops
  match entry with
  | (_, .notDict) => exact hops
  | (_, .record d) =>
    simp only
    split
    · exact hops
    · split
      · exact hops
      · rename_i hneg
        intro op hop
        rcases List.mem_append.mp hop with hmem | hmem
        · exact hops op hmem
        · rcases List.mem_singleton.mp hmem with rfl
          show 0 ≤ parse_rarity d.rarity
          omega

/-- The C4 counterexample table: a single record carrying the out-of-range
integer rarity 6. -/
def chars6 : List (Tok × CharEntry) :=
  [("char_006".toList, .record { name := "无名".toList
                                 rarity := .int 6
                                 profession := "SNIPER".toList
                                 position := "RANGED".toList })]

/-- See `chars6`. -/
def gacha6 : GachaTable := { gachaTags := [], recruitDetail := "无名".toList }

/-- Claim C4 counterexample: `parse_rarity` performs no upper-bound check, so a
record with raw integer rarity 6 is retained with rarity 6, outside 0..5. -/
theorem build_rarity_range_cex :
    ¬ ∀ op ∈ (build_recruit_data chars6 gacha6).1,
      0 ≤ op.rarity ∧ op.rarity ≤ 5 := by decide

theorem build_rarity_nonneg_witness :
    0 ≤ (Operator.mk ("无名".toList) 2
      ["输出".toList, "狙击干员".toList, "远程位".toList]).rarity :=
  build_rarity_nonneg charsE gachaE _ (by decide)

instance : Std.Antisymm (fun a b : Int => a ≤ b) where
  antisymm h1 h2 := Int.le_antisymm h1 h2

theorem int_min?_eq_some_iff {l : List Int} {a : Int} :
    l.min? = some a ↔ a ∈ l ∧ ∀ b ∈ l, a ≤ b :=
  List.min?_eq_some_iff (fun x => Int.le_refl x) (fun x y => min_choice x y)
    (fun _ _ _ => le_min_iff)

theorem int_max?_eq_some_iff {l : List Int} {a : Int} :
    l.max? = some a ↔ a ∈ l ∧ ∀ b ∈ l, b ≤ a :=
  List.max?_eq_some_iff (fun x => Int.le_refl x) (fun x y => max_choice x y)
    (fun _ _ _ => max_le_iff)

theorem int_min?_perm {l₁ l₂ : List Int} (h : l₁.Perm l₂) : l₁.min? = l₂.min? := by
  cases h1 : l₁.min? with
  | none =>
    rw [List.min?_eq_none_iff] at h1
    have h2 : l₂ = [] := (h1 ▸ h.symm : l₂.Perm []).eq_nil
    rw [h2]
    simp
  | some a =>
    rw [int_min?_eq_some_iff] at h1
    exact (int_min?_eq_some_iff.mpr
      ⟨h.mem_iff.mp h1.1, fun b hb => h1.2 b (h.mem_iff.mpr hb)⟩).symm

theorem matchedOps_rarity5 {combo : List Tok} {ops : List Operator} :
    ∀ m ∈ matchedOps combo ops, m.rarity = 5 → "高级资深干员".toList ∈ combo := by
  intro m hm h5
  simp only [matchedOps, List.mem_filterMap] at hm
  obtain ⟨op, _, heq⟩ := hm
  split at heq
  · split at heq
    · exact absurd heq (by simp)
    · rename_i hgate
      rw [Option.some.injEq] at heq
      subst heq
      simp only at h5
      by_contra hmem
      exact hgate ⟨h5, hmem⟩
  · exact absurd heq (by simp)

theorem processCombo_spec {ops : List Operator} {combo : List Tok} {r : Combination}
    (h : processCombo ops combo = some r) :
    r.tags = combo ∧ r.operators ≠ [] ∧
    ((r.operators.map (fun m => m.rarity)).min? = some r.min_rarity) ∧
    r.min_rarity ≠ 1 ∧ r.min_rarity ≠ 2 ∧
    (r.min_rarity = 0 → ∀ m ∈ r.operators, m.rarity = 0) ∧
    (∀ m ∈ r.operators, m.rarity = 5 → "高级资深干员".toList ∈ combo) := by
  simp only [processCombo] at h
  set matched := matchedOps combo ops with hmdef
  by_cases hne : matched = []
  · rw [if_pos hne] at h
    exact absurd h (by simp)
  rw [if_neg hne] at h
  have hmapne : matched.map (fun m => m.rarity) ≠ [] := by
    simpa using hne
  obtain ⟨m0, hmin⟩ : ∃ m0, (matched.map (fun m => m.rarity)).min? = some m0 := by
    cases hx : (matched.map (fun m => m.rarity)).min? with
    | none => exact absurd (List.min?_eq_none_iff.mp hx) hmapne
    | some v => exact ⟨v, rfl⟩
  obtain ⟨x0, hmax⟩ : ∃ x0, (matched.map (fun m => m.rarity)).max? = some x0 := by
    cases hx : (matched.map (fun m => m.rarity)).max? with
    | none => exact absurd (List.max?_eq_none_iff.mp hx) hmapne
    | some v => exact ⟨v, rfl⟩
  rw [hmin, hmax] at h
  simp only [Option.getD_some] at h
  obtain ⟨hm0_mem, hm0_le⟩ := int_min?_eq_some_iff.mp hmin
  split at h
  · exact absurd h (by simp)
  rename_i h12
  split at h
  · rename_i h0
    split at h
    · exact absurd h (by simp)
    rename_i hmaxpos
    rw [Option.some.injEq] at h
    subst h
    subst h0
    obtain ⟨m, hm_mem, hmr⟩ := List.mem_map.mp hm0_mem
    have hm_filt : m ∈ matched.filter (fun m => m.rarity = 0) :=
      List.mem_filter.mpr ⟨hm_mem, by simp [hmr]⟩
    refine ⟨rfl, ?_, ?_, by dsimp only; decide, by dsimp only; decide, ?_, ?_⟩
    · exact List.ne_nil_of_mem ((List.mem_insertionSort matchedLe).mpr hm_filt)
    · dsimp only
      apply int_min?_eq_some_iff.mpr
      constructor
      · exact List.mem_map.mpr
          ⟨m, (List.mem_insertionSort matchedLe).mpr hm_filt, hmr⟩
      · intro b hb
        obtain ⟨m', hm', rfl⟩ := List.mem_map.mp hb
        have h1 : m' ∈ matched.filter (fun m => m.rarity = 0) :=
          (List.mem_insertionSort matchedLe).mp hm'
        have h2 := (List.mem_filter.mp h1).2
        simp at h2
        omega
    · intro _ m' hm'
      have h1 : m' ∈ matched.filter (fun m => m.rarity = 0) :=
        (List.mem_insertionSort matchedLe).mp hm'
      have h2 := (List.mem_filter.mp h1).2
      simpa using h2
    · intro m' hm' h5
      have h1 : m' ∈ matched.filter (fun m => m.rarity = 0) :=
        (List.mem_insertionSort matchedLe).mp hm'
      have h2 := List.mem_of_mem_filter h1
      rw [hmdef] at h2
      exact matchedOps_rarity5 m' h2 h5
  · rename_i h0
    rw [Option.some.injEq] at h
    subst h
    obtain ⟨m, hm_mem, hmr⟩ := List.mem_map.mp hm0_mem
    refine ⟨rfl, ?_, ?_, fun h1 => h12 (Or.inl h1), fun h2 => h12 (Or.inr h2),
      fun hc => absurd hc h0, ?_⟩
    · exact List.ne_nil_of_mem ((List.mem_insertionSort matchedLe).mpr hm_mem)
    · show ((matched.insertionSort matchedLe).map (fun m => m.rarity)).min? = some m0
      have hperm := (List.perm_insertionSort matchedLe matched).map (fun m => m.rarity)
      rw [int_min?_perm hperm, hmin]
    · intro m' hm' h5
      have h1 : m' ∈ matched := (List.mem_insertionSort matchedLe).mp hm'
      rw [hmdef] at h1
      exact matchedOps_rarity5 m' h1 h5

theorem mem_find_recruit {u : List Tok} {ops : List Operator} {c : Nat} {r : Combination}
    (h : r ∈ find_recruit_combinations u ops c) :
    ∃ combo, processCombo ops combo = some r ∧ r.tags = combo := by
  simp only [find_recruit_combinations, List.mem_insertionSort, List.mem_flatMap,
    List.mem_filterMap] at h
  obtain ⟨k, _, combo, _, hp⟩ := h
  exact ⟨combo, hp, (processCombo_spec hp).1⟩

/-- Claim C1: in every solver result the floor rarity is never 1 or 2, and a
floor of 0 means every reported operator has rarity 0. -/
theorem solver_value_filter (user_tags : List Tok) (operators : List Operator) (c : Nat) :
    ∀ r ∈ find_recruit_combinations user_tags operators c,
      r.min_rarity ≠ 1 ∧ r.min_rarity ≠ 2 ∧
      (r.min_rarity = 0 → ∀ m ∈ r.operators, m.rarity = 0) := by
  intro r hr
  obtain ⟨combo, hp, -⟩ := mem_find_recruit hr
  obtain ⟨-, -, -, h1, h2, h0, -⟩ := processCombo_spec hp
  exact ⟨h1, h2, h0⟩

def opsW : List Operator :=
  [Operator.mk ['X'] 3 [['a'], ['b']], Operator.mk ['Y'] 4 [['a']]]

def tagsW : List Tok := [['a'], ['b']]

theorem solver_value_filter_witness :
    ((Combination.mk [['a']] [Matched.mk ['Y'] 4, Matched.mk ['X'] 3] 3).min_rarity ≠ 1 ∧
     (Combination.mk [['a']] [Matched.mk ['Y'] 4, Matched.mk ['X'] 3] 3).min_rarity ≠ 2 ∧
     ((Combination.mk [['a']] [Matched.mk ['Y'] 4, Matched.mk ['X'] 3] 3).min_rarity = 0 →
       ∀ m ∈ (Combination.mk [['a']] [Matched.mk ['Y'] 4, Matched.mk ['X'] 3] 3).operators,
         m.rarity = 0)) :=
  solver_value_filter tagsW opsW 3 _ (by decide)

/-- Claim C2: no solver result contains a rarity-5 operator unless its tag
subset contains the top-veteran tag. -/
theorem solver_rarity_gate (user_tags : List Tok) (operators : List Operator) (c : Nat) :
    ∀ r ∈ find_recruit_combinations user_tags operators c,
      ∀ m ∈ r.operators, m.rarity = 5 → "高级资深干员".toList ∈ r.tags := by
  intro r hr
  obtain ⟨combo, hp, htags⟩ := mem_find_recruit hr
  obtain ⟨-, -, -, -, -, -, h5⟩ := processCombo_spec hp
  rw [htags]
  exact h5

theorem solver_rarity_gate_witness :
    "高级资深干员".toList ∈
      (Combination.mk ["高级资深干员".toList] [Matched.mk ['Z'] 5] 5).tags :=
  solver_rarity_gate ["高级资深干员".toList, ['a']]
    [Operator.mk ['Z'] 5 ["高级资深干员".toList, ['a']]] 3
    (Combination.mk ["高级资深干员".toList] [Matched.mk ['Z'] 5] 5) (by decide)
    (Matched.mk ['Z'] 5) (by decide) (by decide)

/-- Claim C3: the solver's result list is non-increasing in `min_rarity`, and
non-decreasing in subset size among results of equal `min_rarity`. -/
theorem solver_sort_order (user_tags : List Tok) (operators : List Operator) (c : Nat) :
    (find_recruit_combinations user_tags operators c).Pairwise
      (fun a b => b.min_rarity ≤ a.min_rarity ∧
        (a.min_rarity = b.min_rarity → a.tags.length ≤ b.tags.length)) := by
  unfold find_recruit_combinations
  refine (List.sorted_insertionSort comboLe _).imp ?_
  intro a b hab
  unfold comboLe at hab
  exact ⟨by omega, fun he => by omega⟩

/-- Claim C6: every solver result has a non-empty operator list, and its
`min_rarity` is the minimum rarity among those operators. -/
theorem solver_min_rarity_inv (user_tags : List Tok) (operators : List Operator) (c : Nat) :
    ∀ r ∈ find_recruit_combinations user_tags operators c,
      r.operators ≠ [] ∧
      (r.operators.map (fun m => m.rarity)).min? = some r.min_rarity := by
  intro r hr
  obtain ⟨combo, hp, -⟩ := mem_find_recruit hr
  obtain ⟨-, hne, hmin, -, -, -, -⟩ := processCombo_spec hp
  exact ⟨hne, hmin⟩

theorem solver_min_rarity_inv_witness :
    (Combination.mk [['b']] [Matched.mk ['X'] 3] 3).operators ≠ [] ∧
    ((Combination.mk [['b']] [Matched.mk ['X'] 3] 3).operators.map
      (fun m => m.rarity)).min? = some (Combination.mk [['b']] [Matched.mk ['X'] 3] 3).min_rarity :=
  solver_min_rarity_inv tagsW opsW 3 _ (by decide)

theorem find_prefix_spec {kws : List Tok} {s k : Tok}
    (hsort : kws.Pairwise (fun a b => b.length ≤ a.length))
    (h : kws.find? (fun x => x.isPrefixOf s) = some k) :
    k <+: s ∧ ∀ x ∈ kws, x <+: s → x.length ≤ k.length := by
  obtain ⟨hp, as, bs, heq, hprev⟩ := List.find?_eq_some.mp h
  refine ⟨List.isPrefixOf_iff_prefix.mp hp, ?_⟩
  subst heq
  rw [List.pairwise_append] at hsort
  obtain ⟨-, hcons, -⟩ := hsort
  rw [List.pairwise_cons] at hcons
  intro x hx hxs
  rcases List.mem_append.mp hx with hxa | hxk
  · exfalso
    have htrue : List.isPrefixOf x s = true := List.isPrefixOf_iff_prefix.mpr hxs
    have hfalse := hprev x hxa
    simp [htrue] at hfalse
  · rcases List.mem_cons.mp hxk with rfl | hxb
    · exact Nat.le_refl _
    · exact hcons.1 x hxb

instance (vt kws : List Tok) : Decidable (KeywordOrder vt kws) := by
  unfold KeywordOrder
  infer_instance

theorem find_prefix_congr {kws₁ kws₂ : List Tok}
    (hmem : ∀ x, x ∈ kws₁ ↔ x ∈ kws₂)
    (h₁ : kws₁.Pairwise (fun a b => b.length ≤ a.length))
    (h₂ : kws₂.Pairwise (fun a b => b.length ≤ a.length)) (s : Tok) :
    kws₁.find? (fun x => x.isPrefixOf s) = kws₂.find? (fun x => x.isPrefixOf s) := by
  cases e₁ : kws₁.find? (fun x => x.isPrefixOf s) with
  | none =>
    cases e₂ : kws₂.find? (fun x => x.isPrefixOf s) with
    | none => rfl
    | some k₂ =>
      have hk₂ := List.find?_some e₂
      have hm₂ := List.mem_of_find?_eq_some e₂
      exact absurd hk₂ (List.find?_eq_none.mp e₁ k₂ ((hmem k₂).mpr hm₂))
  | some k₁ =>
    cases e₂ : kws₂.find? (fun x => x.isPrefixOf s) with
    | none =>
      have hk₁ := List.find?_some e₁
      have hm₁ := List.mem_of_find?_eq_some e₁
      exact absurd hk₁ (List.find?_eq_none.mp e₂ k₁ ((hmem k₁).mp hm₁))
    | some k₂ =>
      obtain ⟨hp₁, hmax₁⟩ := find_prefix_spec h₁ e₁
      obtain ⟨hp₂, hmax₂⟩ := find_prefix_spec h₂ e₂
      have hm₁ := List.mem_of_find?_eq_some e₁
      have hm₂ := List.mem_of_find?_eq_some e₂
      have hle₁ : k₂.length ≤ k₁.length := hmax₁ k₂ ((hmem k₂).mpr hm₂) hp₂
      have hle₂ : k₁.length ≤ k₂.length := hmax₂ k₁ ((hmem k₁).mp hm₁) hp₁
      have hk : k₁ = k₂ :=
        (List.prefix_of_prefix_length_le hp₁ hp₂ hle₂).eq_of_length
          (Nat.le_antisymm hle₂ hle₁)
      rw [hk]

theorem greedySplit_congr {kws₁ kws₂ : List Tok}
    (hfind : ∀ s : Tok, kws₁.find? (fun x => x.isPrefixOf s) =
      kws₂.find? (fun x => x.isPrefixOf s)) :
    ∀ (fuel : Nat) (s : Tok), greedySplit kws₁ fuel s = greedySplit kws₂ fuel s := by
  intro fuel
  induction fuel with
  | zero => intro s; cases s <;> rfl
  | succ n ih =>
    intro s
    cases s with
    | nil => rfl
    | cons c cs =>
      simp only [greedySplit, greedyStep, hfind (c :: cs)]
      cases hx : kws₂.find? (fun x => x.isPrefixOf (c :: cs)) with
      | none => exact ih cs
      | some kw => simp only [ih]

/-- Claim C5: `smart_split_tags` is deterministic — any two admissible
length-descending orderings of the keyword set (the source's unordered
`set`) produce identical output on the same input text. -/
theorem smart_split_deterministic (valid_tags kws₁ kws₂ : List Tok) (text : Tok)
    (h₁ : KeywordOrder valid_tags kws₁) (h₂ : KeywordOrder valid_tags kws₂) :
    smart_split_tags_with kws₁ valid_tags text =
      smart_split_tags_with kws₂ valid_tags text := by
  obtain ⟨m₁, a₁, v₁, s₁⟩ := h₁
  obtain ⟨m₂, a₂, v₂, s₂⟩ := h₂
  have hmem : ∀ x, x ∈ kws₁ ↔ x ∈ kws₂ := by
    intro x
    constructor
    · intro hx
      rcases m₁ x hx with ha | hv
      · exact a₂ x ha
      · exact v₂ x hv
    · intro hx
      rcases m₂ x hx with ha | hv
      · exact a₁ x ha
      · exact v₁ x hv
  have hfind := find_prefix_congr hmem s₁ s₂
  have hpp : processPart kws₁ valid_tags = processPart kws₂ valid_tags := by
    funext part
    simp only [processPart, greedySplit_congr hfind]
  unfold smart_split_tags_with
  rw [hpp]

def kwsW1 : List Tok := allKeywords ["输出".toList]

def kwsW2 : List Tok :=
  (firstDedup (["输出".toList] ++ aliasKeys)).insertionSort
    (fun a b => b.length ≤ a.length)

theorem smart_split_deterministic_witness :
    KeywordOrder ["输出".toList] kwsW1 ∧ KeywordOrder ["输出".toList] kwsW2 ∧
    smart_split_tags_with kwsW1 ["输出".toList] "高资近卫输出".toList =
      smart_split_tags_with kwsW2 ["输出".toList] "高资近卫输出".toList :=
  ⟨by decide, by decide,
    smart_split_deterministic ["输出".toList] kwsW1 kwsW2 ("高资近卫输出".toList)
      (by decide) (by decide)⟩
